import Mathlib

/-!
Verification of the write utilities of the QNEthernet-ptp repository
(src/src/util/PrintUtils.h).  The repository ships only the header: the
declarations and documentation of writeFully and writeMagic.  The loop
bodies themselves are not part of the sources, so the definitions below
are modelled from the specification (spec.md sections 4.1 and 4.2), as
noted in each doc comment.

A sink (a Print object) is modelled as a state machine: a state type σ
and a function taking the current state and the offered chunk of bytes,
returning the count of bytes actually written together with the next
state.  The stop predicate (breakf, a zero-argument capability that may
change behaviour between calls) is modelled likewise with its own state
type τ.  Bytes are natural numbers.

Each run additionally produces a ghost trace: one entry per sink
invocation, recording the chunk that was offered and the count the sink
returned.  The trace is pure instrumentation; the returned byte count is
unchanged by it.
-/

namespace QNEthernet

/-- Result of a run of the fully-write loop: total bytes written, final
sink state, final stop-predicate state, and the ghost trace of sink
invocations (offered chunk, returned count). -/
structure WFResult (σ τ : Type) where
  written : Nat
  sink : σ
  stopSt : τ
  trace : List (List Nat × Nat)
deriving DecidableEq

/-- Modelled from the spec: the loop body of `writeFully` (spec.md §4.1),
whose implementation file is absent from the sources.  On each iteration
with bytes remaining: query the stop predicate if present and return the
bytes written so far when it says true; otherwise offer the remaining
suffix to the sink; if the sink reports zero bytes written, stop (to
avoid an infinite loop) returning the bytes written so far; otherwise
accumulate the count, drop the written bytes and continue.  The first
argument `fuel` is an explicit bound on the number of iterations: every
productive iteration consumes at least one byte, so the initial buffer
length (supplied by `writeFully` below) always suffices, and recursion on
it is structural.  The sink is invoked only while unwritten bytes
remain, so every trace entry has a nonempty chunk. -/
def writeFullyGo {σ τ : Type} (write : σ → List Nat → Nat × σ)
    (breakf : Option (τ → Bool × τ)) :
    Nat → List Nat → σ → τ → WFResult σ τ
  | _, [], s, t => ⟨0, s, t, []⟩
  | 0, _ :: _, s, t => ⟨0, s, t, []⟩
  | fuel + 1, b :: rest, s, t =>
      let c : Bool × τ :=
        match breakf with
        | none => (false, t)
        | some f => f t
      if c.1 then ⟨0, s, c.2, []⟩
      else
        let w := write s (b :: rest)
        if w.1 = 0 then ⟨0, w.2, c.2, [(b :: rest, 0)]⟩
        else
          let r := writeFullyGo write breakf fuel ((b :: rest).drop w.1) w.2 c.2
          ⟨w.1 + r.written, r.sink, r.stopSt, (b :: rest, w.1) :: r.trace⟩

/-- Modelled from the spec: `writeFully` with full observation of the
final sink state, stop-predicate state and invocation trace.  The
iteration bound is the buffer length, which the loop never exhausts. -/
def writeFullyR {σ τ : Type} (write : σ → List Nat → Nat × σ)
    (breakf : Option (τ → Bool × τ)) (buf : List Nat) (s : σ) (t : τ) :
    WFResult σ τ :=
  writeFullyGo write breakf buf.length buf s t

/-- Modelled from the spec: `writeFully(p, buf, size, breakf)` of
src/src/util/PrintUtils.h, whose implementation file is absent from the
sources; it returns the number of bytes actually written. -/
def writeFully {σ τ : Type} (write : σ → List Nat → Nat × σ)
    (breakf : Option (τ → Bool × τ)) (buf : List Nat) (s : σ) (t : τ) :
    Nat :=
  (writeFullyR write breakf buf s t).written

/-- Modelled from the spec: construction of the magic-packet buffer
(spec.md §4.2), built fresh on each call: six synchronization bytes of
value 0xFF, then the six MAC bytes appended sixteen times. -/
def magicPacket (mac : List Nat) : List Nat :=
  (List.range 16).foldl (fun acc _ => acc ++ mac) (List.replicate 6 0xFF)

/-- The canonical magic-packet byte layout exactly as the spec words it:
six bytes of value 0xFF followed by the MAC address repeated 16 times. -/
def magicPacketSpec (mac : List Nat) : List Nat :=
  List.replicate 6 0xFF ++ (List.replicate 16 mac).flatten

/-- Modelled from the spec: `writeMagic` with full observation, passing
the constructed packet and the stop predicate to the fully-write loop. -/
def writeMagicR {σ τ : Type} (write : σ → List Nat → Nat × σ)
    (breakf : Option (τ → Bool × τ)) (mac : List Nat) (s : σ) (t : τ) :
    WFResult σ τ :=
  writeFullyR write breakf (magicPacket mac) s t

/-- Modelled from the spec: `writeMagic(p, mac, breakf)` of
src/src/util/PrintUtils.h, whose implementation file is absent from the
sources; it constructs the magic packet and delegates to `writeFully`,
returning its result unchanged. -/
def writeMagic {σ τ : Type} (write : σ → List Nat → Nat × σ)
    (breakf : Option (τ → Bool × τ)) (mac : List Nat) (s : σ) (t : τ) :
    Nat :=
  (writeMagicR write breakf mac s t).written

/-- A sink that records every byte offered to it and accepts all of
them: its state is the list of bytes received so far. -/
def recWrite (rec : List Nat) (l : List Nat) : Nat × List Nat :=
  (l.length, rec ++ l)

/-- A sink that accepts at most one byte per call (used to exhibit
runs whose iteration count equals the buffer length). -/
def oneWrite (s : Unit) (l : List Nat) : Nat × Unit :=
  (min 1 l.length, s)

/-- A sink that accepts one byte on its first call and then refuses to
make progress on every later call; its state counts the calls made. -/
def stallWrite (k : Nat) (l : List Nat) : Nat × Nat :=
  if k = 0 then (min 1 l.length, 1) else (0, k + 1)

/-- Every run writes at least one byte per productive iteration, so when
the stop predicate never fires and the sink always makes progress within
its contract, the loop drains the whole buffer (for any sufficient
iteration bound). -/
lemma go_progress {σ τ : Type} (write : σ → List Nat → Nat × σ)
    (breakf : Option (τ → Bool × τ))
    (hw : ∀ s l, l ≠ [] → 1 ≤ (write s l).1 ∧ (write s l).1 ≤ l.length)
    (hb : ∀ f u, breakf = some f → (f u).1 = false) :
    ∀ fuel buf s t, buf.length ≤ fuel →
      (writeFullyGo write breakf fuel buf s t).written = buf.length := by
  intro fuel
  induction fuel with
  | zero =>
    intro buf s t h
    cases buf with
    | nil => rfl
    | cons b rest => simp at h
  | succ n ih =>
    intro buf s t h
    cases buf with
    | nil => rfl
    | cons b rest =>
      have hne : (b :: rest) ≠ ([] : List Nat) := by simp
      obtain ⟨h1, h2⟩ := hw s (b :: rest) hne
      simp only [writeFullyGo]
      cases hbf : breakf with
      | none =>
        subst hbf
        simp only
        rw [if_neg (by simp)]
        rw [if_neg (by omega)]
        have hlen : ((b :: rest).drop (write s (b :: rest)).1).length ≤ n := by
          rw [List.length_drop]
          simp only [List.length_cons] at h ⊢
          omega
        have hr := ih ((b :: rest).drop (write s (b :: rest)).1)
          (write s (b :: rest)).2 t hlen
        simp only [hr, List.length_drop]
        simp only [List.length_cons] at h2 ⊢
        omega
      | some f =>
        subst hbf
        simp only
        rw [if_neg (by simp [hb f t rfl])]
        rw [if_neg (by omega)]
        have hlen : ((b :: rest).drop (write s (b :: rest)).1).length ≤ n := by
          rw [List.length_drop]
          simp only [List.length_cons] at h ⊢
          omega
        have hr := ih ((b :: rest).drop (write s (b :: rest)).1)
          (write s (b :: rest)).2 (f t).2 hlen
        simp only [hr, List.length_drop]
        simp only [List.length_cons] at h2 ⊢
        omega

/-- The total byte count of a run equals the sum of the per-invocation
counts recorded in the ghost trace. -/
lemma go_sum {σ τ : Type} (write : σ → List Nat → Nat × σ)
    (breakf : Option (τ → Bool × τ)) :
    ∀ fuel buf s t,
      (writeFullyGo write breakf fuel buf s t).written =
        ((writeFullyGo write breakf fuel buf s t).trace.map Prod.snd).sum := by
  intro fuel
  induction fuel with
  | zero =>
    intro buf s t
    cases buf with
    | nil => rfl
    | cons b rest => rfl
  | succ n ih =>
    intro buf s t
    cases buf with
    | nil => rfl
    | cons b rest =>
      simp only [writeFullyGo]
      cases hbf : breakf with
      | none =>
        subst hbf
        simp only
        rw [if_neg (by simp)]
        by_cases hz : (write s (b :: rest)).1 = 0
        · rw [if_pos hz]
          simp
        · rw [if_neg hz]
          simp only [List.map_cons, List.sum_cons]
          rw [ih]
      | some f =>
        subst hbf
        simp only
        by_cases hc : (f t).1 = true
        · rw [if_pos hc]
          rfl
        · rw [if_neg hc]
          by_cases hz : (write s (b :: rest)).1 = 0
          · rw [if_pos hz]
            simp
          · rw [if_neg hz]
            simp only [List.map_cons, List.sum_cons]
            rw [ih]

/-- When the sink honours its contract (never reporting more bytes than
offered), a run never writes more bytes than the buffer holds. -/
lemma go_bound {σ τ : Type} (write : σ → List Nat → Nat × σ)
    (breakf : Option (τ → Bool × τ))
    (hw : ∀ s l, (write s l).1 ≤ l.length) :
    ∀ fuel buf s t,
      (writeFullyGo write breakf fuel buf s t).written ≤ buf.length := by
  intro fuel
  induction fuel with
  | zero =>
    intro buf s t
    cases buf with
    | nil => exact Nat.le_refl 0
    | cons b rest => exact Nat.zero_le _
  | succ n ih =>
    intro buf s t
    cases buf with
    | nil => exact Nat.le_refl 0
    | cons b rest =>
      have h2 := hw s (b :: rest)
      simp only [writeFullyGo]
      cases hbf : breakf with
      | none =>
        subst hbf
        simp only
        rw [if_neg (by simp)]
        by_cases hz : (write s (b :: rest)).1 = 0
        · rw [if_pos hz]
          exact Nat.zero_le _
        · rw [if_neg hz]
          have hr := ih ((b :: rest).drop (write s (b :: rest)).1)
            (write s (b :: rest)).2 t
          simp only [List.length_drop] at hr
          simp only
          omega
      | some f =>
        subst hbf
        simp only
        by_cases hc : (f t).1 = true
        · rw [if_pos hc]
          exact Nat.zero_le _
        · rw [if_neg hc]
          by_cases hz : (write s (b :: rest)).1 = 0
          · rw [if_pos hz]
            exact Nat.zero_le _
          · rw [if_neg hz]
            have hr := ih ((b :: rest).drop (write s (b :: rest)).1)
              (write s (b :: rest)).2 (f t).2
            simp only [List.length_drop] at hr
            simp only
            omega

/-- A sink that always accepts the whole offered chunk finishes a
nonempty buffer in exactly one invocation. -/
lemma go_full {σ τ : Type} (write : σ → List Nat → Nat × σ)
    (hfull : ∀ s l, (write s l).1 = l.length) :
    ∀ fuel buf (s : σ) (t : τ), buf ≠ [] → buf.length ≤ fuel →
      writeFullyGo write none fuel buf s t =
        ⟨buf.length, (write s buf).2, t, [(buf, buf.length)]⟩ := by
  intro fuel buf s t hne hlen
  cases fuel with
  | zero =>
    cases buf with
    | nil => exact absurd rfl hne
    | cons b rest => simp at hlen
  | succ n =>
    cases buf with
    | nil => exact absurd rfl hne
    | cons b rest =>
      simp only [writeFullyGo]
      rw [if_neg (by simp)]
      rw [if_neg (by rw [hfull]; simp)]
      have hdrop : ((b :: rest).drop (write s (b :: rest)).1) = [] := by
        rw [hfull]
        exact List.drop_length _
      rw [hdrop]
      have hbase : writeFullyGo write (none : Option (τ → Bool × τ)) n
          ([] : List Nat) (write s (b :: rest)).2 t =
          ⟨0, (write s (b :: rest)).2, t, []⟩ := by
        cases n <;> rfl
      rw [hbase, hfull]
      simp

/-- A zero-count entry in the ghost trace is always the final entry of
the run, and the run returns the sum of the counts before it. -/
lemma go_zero_last {σ τ : Type} (write : σ → List Nat → Nat × σ)
    (breakf : Option (τ → Bool × τ)) :
    ∀ fuel buf s t pre chunk post,
      (writeFullyGo write breakf fuel buf s t).trace =
        pre ++ (chunk, 0) :: post →
      post = [] ∧
        (writeFullyGo write breakf fuel buf s t).written =
          (pre.map Prod.snd).sum := by
  intro fuel
  induction fuel with
  | zero =>
    intro buf s t pre chunk post h
    cases buf with
    | nil => simp [writeFullyGo] at h
    | cons b rest => simp [writeFullyGo] at h
  | succ n ih =>
    intro buf s t pre chunk post h
    cases buf with
    | nil => simp [writeFullyGo] at h
    | cons b rest =>
      simp only [writeFullyGo] at h ⊢
      cases hbf : breakf with
      | none =>
        subst hbf
        simp only at h ⊢
        rw [if_neg (by simp)] at h ⊢
        by_cases hz : (write s (b :: rest)).1 = 0
        · rw [if_pos hz] at h ⊢
          simp only at h ⊢
          cases pre with
          | nil =>
            simp only [List.nil_append, List.cons.injEq] at h
            exact ⟨h.2.symm, rfl⟩
          | cons x pre2 =>
            simp only [List.cons_append, List.cons.injEq] at h
            exact absurd h.2.symm (by simp)
        · rw [if_neg hz] at h ⊢
          simp only at h ⊢
          cases pre with
          | nil =>
            simp only [List.nil_append, List.cons.injEq, Prod.mk.injEq] at h
            exact absurd h.1.2 hz
          | cons x pre2 =>
            simp only [List.cons_append, List.cons.injEq] at h
            obtain ⟨hx, htr⟩ := h
            obtain ⟨hpost, hsum⟩ := ih ((b :: rest).drop (write s (b :: rest)).1)
              (write s (b :: rest)).2 t pre2 chunk post htr
            refine ⟨hpost, ?_⟩
            rw [← hx]
            simp only [List.map_cons, List.sum_cons]
            omega
      | some f =>
        subst hbf
        simp only at h ⊢
        by_cases hc : (f t).1 = true
        · rw [if_pos hc] at h ⊢
          simp at h
        · rw [if_neg hc] at h ⊢
          by_cases hz : (write s (b :: rest)).1 = 0
          · rw [if_pos hz] at h ⊢
            simp only at h ⊢
            cases pre with
            | nil =>
              simp only [List.nil_append, List.cons.injEq] at h
              exact ⟨h.2.symm, rfl⟩
            | cons x pre2 =>
              simp only [List.cons_append, List.cons.injEq] at h
              exact absurd h.2.symm (by simp)
          · rw [if_neg hz] at h ⊢
            simp only at h ⊢
            cases pre with
            | nil =>
              simp only [List.nil_append, List.cons.injEq, Prod.mk.injEq] at h
              exact absurd h.1.2 hz
            | cons x pre2 =>
              simp only [List.cons_append, List.cons.injEq] at h
              obtain ⟨hx, htr⟩ := h
              obtain ⟨hpost, hsum⟩ := ih ((b :: rest).drop (write s (b :: rest)).1)
                (write s (b :: rest)).2 (f t).2 pre2 chunk post htr
              refine ⟨hpost, ?_⟩
              rw [← hx]
              simp only [List.map_cons, List.sum_cons]
              omega

/-- Folding append over a range of indices appends the same block once
per index. -/
lemma foldl_append_range (mac : List Nat) :
    ∀ (n : Nat) (init : List Nat),
      (List.range n).foldl (fun acc _ => acc ++ mac) init =
        init ++ (List.replicate n mac).flatten := by
  intro n
  induction n with
  | zero => intro init; simp
  | succ m ih =>
    intro init
    rw [List.range_succ, List.foldl_append, ih, List.replicate_succ',
      List.flatten_append]
    simp

/-- The buffer built by the construction loop is exactly the canonical
magic-packet layout of the spec. -/
lemma magicPacket_eq (mac : List Nat) :
    magicPacket mac = magicPacketSpec mac := by
  rw [magicPacket, magicPacketSpec, foldl_append_range]

/-- For a 6-byte MAC address the canonical packet is 102 bytes long. -/
lemma magicPacketSpec_length (mac : List Nat) (h : mac.length = 6) :
    (magicPacketSpec mac).length = 102 := by
  rw [magicPacketSpec]
  simp [List.length_flatten, h, List.map_replicate, List.sum_replicate]

/-- The constructed packet always starts with a synchronization byte, so
it is never empty. -/
lemma magicPacket_ne_nil (mac : List Nat) : magicPacket mac ≠ [] := by
  rw [magicPacket_eq, magicPacketSpec]
  simp

/-- The one-byte-per-call sink needs exactly one invocation per byte of
the buffer. -/
lemma go_oneWrite_trace :
    ∀ fuel (buf : List Nat), buf.length ≤ fuel →
      (writeFullyGo oneWrite (none : Option (Unit → Bool × Unit))
        fuel buf () ()).trace.length = buf.length := by
  intro fuel
  induction fuel with
  | zero =>
    intro buf h
    cases buf with
    | nil => rfl
    | cons b rest => simp at h
  | succ n ih =>
    intro buf h
    cases buf with
    | nil => rfl
    | cons b rest =>
      simp only [writeFullyGo]
      rw [if_neg (by simp)]
      have h1 : (oneWrite () (b :: rest)).1 = 1 := by
        simp [oneWrite]
      rw [if_neg (by omega)]
      simp only [h1, List.length_cons]
      have hrec := ih rest (by simp only [List.length_cons] at h; omega)
      simp only [List.drop_succ_cons, List.drop_zero,
        show (oneWrite () (b :: rest)).2 = () from rfl]
      omega

/-- The one-byte-per-call sink makes progress within the sink contract
on every nonempty chunk. -/
lemma oneWrite_progress :
    ∀ (s : Unit) (l : List Nat), l ≠ [] →
      1 ≤ (oneWrite s l).1 ∧ (oneWrite s l).1 ≤ l.length := by
  intro s l hl
  have h0 : 0 < l.length := List.length_pos.mpr hl
  simp only [oneWrite]
  omega

/-- One-invocation characterisation of a full-acceptance run, projected
to the byte count. -/
lemma go_full_written {σ τ : Type} (write : σ → List Nat → Nat × σ)
    (hfull : ∀ s l, (write s l).1 = l.length)
    (buf : List Nat) (s : σ) (t : τ) (hne : buf ≠ []) :
    (writeFullyGo write (none : Option (τ → Bool × τ))
      buf.length buf s t).written = buf.length := by
  rw [go_full write hfull buf.length buf s t hne (Nat.le_refl _)]

/-- One-invocation characterisation of a full-acceptance run, projected
to the final sink state. -/
lemma go_full_sink {σ τ : Type} (write : σ → List Nat → Nat × σ)
    (hfull : ∀ s l, (write s l).1 = l.length)
    (buf : List Nat) (s : σ) (t : τ) (hne : buf ≠ []) :
    (writeFullyGo write (none : Option (τ → Bool × τ))
      buf.length buf s t).sink = (write s buf).2 := by
  rw [go_full write hfull buf.length buf s t hne (Nat.le_refl _)]

/-- The recording sink appends every offered chunk to its record. -/
lemma recWrite_sink (s l : List Nat) : (recWrite s l).2 = s ++ l := rfl

/-- Claim C1: for every 6-byte MAC address, writeMagic constructs and
passes to the sink exactly the 102-byte magic packet, six bytes of value
0xFF followed by the MAC bytes repeated 16 times; a sink that records
everything written ends up holding exactly that packet, and all 102
bytes are reported written. -/
theorem writeMagic_records_packet (mac : List Nat) (h : mac.length = 6) :
    (writeMagicR recWrite (none : Option (Unit → Bool × Unit)) mac [] ()).sink =
        magicPacketSpec mac ∧
      (magicPacketSpec mac).length = 102 ∧
      (writeMagicR recWrite (none : Option (Unit → Bool × Unit)) mac [] ()).written =
        102 := by
  have hfull : ∀ (s l : List Nat), (recWrite s l).1 = l.length := fun s l => rfl
  refine ⟨?_, magicPacketSpec_length mac h, ?_⟩
  · show (writeFullyGo recWrite (none : Option (Unit → Bool × Unit))
      (magicPacket mac).length (magicPacket mac) [] ()).sink = magicPacketSpec mac
    rw [go_full_sink recWrite hfull (magicPacket mac) [] () (magicPacket_ne_nil mac),
      recWrite_sink, List.nil_append]
    exact magicPacket_eq mac
  · show (writeFullyGo recWrite (none : Option (Unit → Bool × Unit))
      (magicPacket mac).length (magicPacket mac) [] ()).written = 102
    rw [go_full_written recWrite hfull (magicPacket mac) [] () (magicPacket_ne_nil mac),
      magicPacket_eq]
    exact magicPacketSpec_length mac h

/-- Witness for claim C1 at the concrete MAC AA:BB:CC:DD:EE:FF used by
the spec's concrete scenario. -/
theorem writeMagic_records_packet_witness :
    ([0xAA, 0xBB, 0xCC, 0xDD, 0xEE, 0xFF] : List Nat).length = 6 ∧
      ((writeMagicR recWrite (none : Option (Unit → Bool × Unit))
          [0xAA, 0xBB, 0xCC, 0xDD, 0xEE, 0xFF] [] ()).sink =
        magicPacketSpec [0xAA, 0xBB, 0xCC, 0xDD, 0xEE, 0xFF] ∧
      (magicPacketSpec [0xAA, 0xBB, 0xCC, 0xDD, 0xEE, 0xFF]).length = 102 ∧
      (writeMagicR recWrite (none : Option (Unit → Bool × Unit))
          [0xAA, 0xBB, 0xCC, 0xDD, 0xEE, 0xFF] [] ()).written = 102) :=
  ⟨by decide,
    writeMagic_records_packet [0xAA, 0xBB, 0xCC, 0xDD, 0xEE, 0xFF] (by decide)⟩

/-- Claim C2: for every buffer and every sink whose write operation
always accepts all bytes requested, writeFully with no stop predicate, or
with one that never returns true, returns exactly the buffer size. -/
theorem writeFully_full_acceptance {σ τ : Type} (write : σ → List Nat → Nat × σ)
    (breakf : Option (τ → Bool × τ)) (buf : List Nat) (s : σ) (t : τ)
    (hfull : ∀ s l, (write s l).1 = l.length)
    (hb : ∀ f u, breakf = some f → (f u).1 = false) :
    writeFully write breakf buf s t = buf.length := by
  have hw : ∀ s l, l ≠ [] → 1 ≤ (write s l).1 ∧ (write s l).1 ≤ l.length := by
    intro s l hl
    rw [hfull]
    exact ⟨List.length_pos.mpr hl, Nat.le_refl _⟩
  exact go_progress write breakf hw hb buf.length buf s t (Nat.le_refl _)

/-- Witness for claim C2: the recording sink accepts everything, so a
3-byte buffer yields a return value of 3. -/
theorem writeFully_full_acceptance_witness :
    (∀ (s l : List Nat), (recWrite s l).1 = l.length) ∧
      writeFully recWrite (none : Option (Unit → Bool × Unit)) [1, 2, 3] [] () = 3 :=
  ⟨fun s l => rfl,
    writeFully_full_acceptance recWrite none [1, 2, 3] [] ()
      (fun s l => rfl) (fun f u h => Option.noConfusion h)⟩

/-- Claim C3: if the sink reports zero bytes written on some invocation,
that invocation is the last one of the run (no further writes happen),
and writeFully returns the total number of bytes written before it.  The
sink is only ever invoked while unwritten bytes remain, so every trace
entry, the zero-count one included, describes an attempt with bytes
remaining. -/
theorem writeFully_zero_progress_stops {σ τ : Type} (write : σ → List Nat → Nat × σ)
    (breakf : Option (τ → Bool × τ)) (buf : List Nat) (s : σ) (t : τ)
    (pre : List (List Nat × Nat)) (chunk : List Nat) (post : List (List Nat × Nat))
    (h : (writeFullyR write breakf buf s t).trace = pre ++ (chunk, 0) :: post) :
    post = [] ∧ writeFully write breakf buf s t = (pre.map Prod.snd).sum :=
  go_zero_last write breakf buf.length buf s t pre chunk post h

/-- Witness for claim C3: a sink that accepts one byte and then stalls
on a 3-byte buffer stops at the stalled call having written 1 byte. -/
theorem writeFully_zero_progress_stops_witness :
    ((writeFullyR stallWrite (none : Option (Unit → Bool × Unit)) [5, 6, 7] 0 ()).trace =
        [([5, 6, 7], 1)] ++ ([6, 7], 0) :: []) ∧
      (([] : List (List Nat × Nat)) = [] ∧
        writeFully stallWrite (none : Option (Unit → Bool × Unit)) [5, 6, 7] 0 () =
          (([([5, 6, 7], 1)] : List (List Nat × Nat)).map Prod.snd).sum) :=
  ⟨by decide,
    writeFully_zero_progress_stops stallWrite none [5, 6, 7] 0 ()
      [([5, 6, 7], 1)] [6, 7] [] (by decide)⟩

/-- Claim C4: the stop predicate is queried before every write attempt,
and once it answers true no sink write is performed from that point on:
whenever the predicate answers true at the state it is queried in,
writeFully returns with 0 further bytes written and an empty invocation
trace, for every buffer; in particular a predicate that is true on the
first check makes writeFully return 0 with the sink never invoked.
Since every iteration of the loop re-enters writeFully at the current
states, this also covers a predicate turning true at a later check. -/
theorem writeFully_stop_first {σ τ : Type} (write : σ → List Nat → Nat × σ)
    (f : τ → Bool × τ) (buf : List Nat) (s : σ) (t : τ)
    (h : (f t).1 = true) :
    writeFully write (some f) buf s t = 0 ∧
      (writeFullyR write (some f) buf s t).trace = [] := by
  cases buf with
  | nil => exact ⟨rfl, rfl⟩
  | cons b rest =>
    constructor
    · show (writeFullyGo write (some f) (b :: rest).length (b :: rest) s t).written = 0
      simp [writeFullyGo, h]
    · show (writeFullyGo write (some f) (b :: rest).length (b :: rest) s t).trace = []
      simp [writeFullyGo, h]

/-- Witness for claim C4: a constantly-true stop predicate makes
writeFully return 0 on a nonempty buffer without invoking the sink. -/
theorem writeFully_stop_first_witness :
    (((fun (u : Unit) => (true, u)) ()).1 = true) ∧
      (writeFully recWrite (some (fun (u : Unit) => (true, u))) [9] [] () = 0 ∧
        (writeFullyR recWrite (some (fun (u : Unit) => (true, u))) [9] [] ()).trace = []) :=
  ⟨rfl, writeFully_stop_first recWrite (fun (u : Unit) => (true, u)) [9] [] () rfl⟩

/-- Claim C5: writeMagic delegates to writeFully, handing it the
canonical magic packet together with the same sink states and the same
stop predicate, and returns its result unchanged, both for the full
observable result and for the returned byte count. -/
theorem writeMagic_delegates {σ τ : Type} (write : σ → List Nat → Nat × σ)
    (breakf : Option (τ → Bool × τ)) (mac : List Nat) (s : σ) (t : τ) :
    writeMagicR write breakf mac s t =
        writeFullyR write breakf (magicPacketSpec mac) s t ∧
      writeMagic write breakf mac s t =
        writeFully write breakf (magicPacketSpec mac) s t := by
  constructor
  · show writeFullyR write breakf (magicPacket mac) s t =
      writeFullyR write breakf (magicPacketSpec mac) s t
    rw [magicPacket_eq]
  · show (writeFullyR write breakf (magicPacket mac) s t).written =
      (writeFullyR write breakf (magicPacketSpec mac) s t).written
    rw [magicPacket_eq]

/-- Claim C6: the value writeFully returns always lies between 0 and the
requested size, for every sink honouring the write contract (never
reporting more bytes than offered) and every stop predicate; the
function is total, so every outcome, failure included, is expressed
through this count alone. -/
theorem writeFully_result_bounds {σ τ : Type} (write : σ → List Nat → Nat × σ)
    (breakf : Option (τ → Bool × τ)) (buf : List Nat) (s : σ) (t : τ)
    (hw : ∀ s l, (write s l).1 ≤ l.length) :
    0 ≤ writeFully write breakf buf s t ∧
      writeFully write breakf buf s t ≤ buf.length :=
  ⟨Nat.zero_le _, go_bound write breakf hw buf.length buf s t⟩

/-- Witness for claim C6 at the recording sink and a 2-byte buffer. -/
theorem writeFully_result_bounds_witness :
    (∀ (s l : List Nat), (recWrite s l).1 ≤ l.length) ∧
      (0 ≤ writeFully recWrite (none : Option (Unit → Bool × Unit)) [3, 4] [] () ∧
        writeFully recWrite (none : Option (Unit → Bool × Unit)) [3, 4] [] () ≤
          ([3, 4] : List Nat).length) :=
  ⟨fun s l => Nat.le_refl _,
    writeFully_result_bounds recWrite none [3, 4] [] () (fun s l => Nat.le_refl _)⟩

/-- Claim C7: with no stop predicate and a sink that accepts at least one
byte on every call (possibly fewer than requested), writeFully
terminates with the whole buffer written; the model itself is a total
function, so termination holds by construction.  The second conjunct
shows the iteration count is nevertheless unbounded across runs: the
one-byte-per-call sink needs exactly k invocations for a k-byte
buffer. -/
theorem writeFully_slow_drip_terminates {σ τ : Type} (write : σ → List Nat → Nat × σ)
    (buf : List Nat) (s : σ) (t : τ)
    (hw : ∀ s l, l ≠ [] → 1 ≤ (write s l).1 ∧ (write s l).1 ≤ l.length) :
    writeFully write (none : Option (τ → Bool × τ)) buf s t = buf.length ∧
      ∀ k, (writeFullyR oneWrite (none : Option (Unit → Bool × Unit))
        (List.replicate k 0) () ()).trace.length = k := by
  constructor
  · exact go_progress write none hw (fun f u hu => Option.noConfusion hu)
      buf.length buf s t (Nat.le_refl _)
  · intro k
    show (writeFullyGo oneWrite (none : Option (Unit → Bool × Unit))
      (List.replicate k 0).length (List.replicate k 0) () ()).trace.length = k
    rw [go_oneWrite_trace (List.replicate k 0).length (List.replicate k 0)
      (Nat.le_refl _), List.length_replicate]

/-- Witness for claim C7 at the one-byte-per-call sink and a 3-byte
buffer. -/
theorem writeFully_slow_drip_terminates_witness :
    (∀ (s : Unit) (l : List Nat), l ≠ [] →
        1 ≤ (oneWrite s l).1 ∧ (oneWrite s l).1 ≤ l.length) ∧
      (writeFully oneWrite (none : Option (Unit → Bool × Unit)) [1, 2, 3] () () = 3 ∧
        ∀ k, (writeFullyR oneWrite (none : Option (Unit → Bool × Unit))
          (List.replicate k 0) () ()).trace.length = k) :=
  ⟨oneWrite_progress,
    writeFully_slow_drip_terminates oneWrite [1, 2, 3] () () oneWrite_progress⟩

/-- Counterexample to claim C8 as stated: a sink that makes zero
progress on its very first call makes writeFully return 0 on a 1-byte
buffer even though the stop predicate is absent, so the header's
unconditional promise that all bytes are written does not hold. -/
theorem writeFully_zero_sink_counterexample :
    writeFully (fun (s : Unit) (_ : List Nat) => (0, s))
      (none : Option (Unit → Bool × Unit)) [1] () () ≠ ([1] : List Nat).length := by
  decide

/-- Claim C8 (amended): if the stop predicate is absent or never returns
true, and the sink makes nonzero progress within its contract on every
call where bytes remain, writeFully returns exactly the buffer size. -/
theorem writeFully_all_written_of_progress {σ τ : Type} (write : σ → List Nat → Nat × σ)
    (breakf : Option (τ → Bool × τ)) (buf : List Nat) (s : σ) (t : τ)
    (hw : ∀ s l, l ≠ [] → 1 ≤ (write s l).1 ∧ (write s l).1 ≤ l.length)
    (hb : ∀ f u, breakf = some f → (f u).1 = false) :
    writeFully write breakf buf s t = buf.length :=
  go_progress write breakf hw hb buf.length buf s t (Nat.le_refl _)

/-- Witness for the amended claim C8: a never-true stop predicate with
the one-byte-per-call sink on a 2-byte buffer returns 2. -/
theorem writeFully_all_written_of_progress_witness :
    (∀ (s : Unit) (l : List Nat), l ≠ [] →
        1 ≤ (oneWrite s l).1 ∧ (oneWrite s l).1 ≤ l.length) ∧
      writeFully oneWrite (some (fun (u : Unit) => (false, u))) [7, 8] () () = 2 :=
  ⟨oneWrite_progress,
    writeFully_all_written_of_progress oneWrite (some (fun (u : Unit) => (false, u)))
      [7, 8] () () oneWrite_progress
      (fun f u hu => by cases hu; rfl)⟩

/-- Claim C9: a sink that writes 10 bytes per call (capped at the bytes
remaining), fed the 102-byte magic packet with no stop predicate, is
invoked exactly 11 times, ten calls writing 10 bytes and one call
writing 2, and 102 is returned.  The sink state counts its
invocations. -/
theorem writeFully_ten_per_call_magic :
    writeFully (fun (k : Nat) (l : List Nat) => (min 10 l.length, k + 1))
        (none : Option (Unit → Bool × Unit))
        (magicPacket [0xAA, 0xBB, 0xCC, 0xDD, 0xEE, 0xFF]) 0 () = 102 ∧
      (writeFullyR (fun (k : Nat) (l : List Nat) => (min 10 l.length, k + 1))
        (none : Option (Unit → Bool × Unit))
        (magicPacket [0xAA, 0xBB, 0xCC, 0xDD, 0xEE, 0xFF]) 0 ()).sink = 11 ∧
      ((writeFullyR (fun (k : Nat) (l : List Nat) => (min 10 l.length, k + 1))
        (none : Option (Unit → Bool × Unit))
        (magicPacket [0xAA, 0xBB, 0xCC, 0xDD, 0xEE, 0xFF]) 0 ()).trace.map Prod.snd) =
        List.replicate 10 10 ++ [2] := by
  decide

end QNEthernet
